import Mathlib

/-!
Shallow embedding of `reem/rust-lazylist` (`src/lib.rs`).

The Rust library is a lazy, reference-counted singly linked list:
`RcList<T> = Rc<Thunk<List<T>>>`, where `Thunk` (from the `lazy` crate)
is a memoizing deferred computation and `List<T>` is `Nil | Cons(T, RcList<T>)`.

We model the run-time state as a heap of lazy cells.  A handle
(`RcList<T>`, i.e. `Rc<Thunk<...>>`) is the address of a cell; cloning an
`Rc` yields a handle to the very same cell, so reference equality of
handles is equality of addresses.  Each cell is either still unevaluated
(holding its producer closure) or evaluated (holding the memoized node).

Producer closures appearing in the source are first-order, so we embed
them as data:
  * `Producer.node n`     — a closure returning an already-built node, as in
    `push`: `pair!(val, self)` expands to
    `Rc::new(Thunk::new(move || Cons(val, self)))` where `self` is an
    existing handle captured by the closure;
  * `Producer.consNew v p` — a closure whose body itself allocates a fresh
    cell, as in `singleton`: `pair!(val, nil!())` expands to
    `Rc::new(Thunk::new(move || Cons(val, Rc::new(Thunk::new(move || Nil)))))`,
    the inner allocation being deferred until the outer thunk is forced;
  * `Producer.gen g`      — a closure driving a generator state `g` with a
    step function, as in `from_iter` (state: the remaining iterator; each
    force calls `iter.next()` exactly once) and the test's
    `fibs_inner(n0, n1) = pair!(n0, fibs_inner(n1, n0 + n1))`
    (state: the pair `(n0, n1)`).

The heap also carries two instrumentation counters that model observable
side effects: `runs` (total number of producer closures that have been
executed, i.e. cells whose one-shot evaluation happened — a "side-effect
counter in the producer") and `pulls` (total number of `iter.next()` calls
made by generator-backed producers).
-/

namespace Lazylist

/-- A node of the list, mirroring Rust `enum List<T> { Nil, Cons(T, RcList<T>) }`.
The second field of `Cons` is the handle (heap address) of the lazy tail. -/
inductive ListNode (T : Type) where
  | Nil : ListNode T
  | Cons : T → Nat → ListNode T
deriving DecidableEq, Repr

/-- Result of one step of a generator (one `iter.next()` call):
either the sequence is exhausted or it yields a value and a next state. -/
inductive GenStep (T G : Type) where
  | nil : GenStep T G
  | cons : T → G → GenStep T G
deriving DecidableEq, Repr

/-- The producer closures occurring in the source, embedded as data (see
the module docstring). -/
inductive Producer (T G : Type) where
  | node : ListNode T → Producer T G
  | consNew : T → Producer T G → Producer T G
  | gen : G → Producer T G
deriving DecidableEq, Repr

/-- State of one lazy cell (`Thunk<List<T>>`): unevaluated with its pending
producer, or evaluated with the memoized node.  The transition is one-way:
forcing an unevaluated cell runs the producer once, stores the node and
discards the producer. -/
inductive CellState (T G : Type) where
  | unevaluated : Producer T G → CellState T G
  | evaluated : ListNode T → CellState T G
deriving DecidableEq, Repr

/-- The run-time heap: the list of cells (a cell's address is its index),
plus two side-effect counters: `runs` counts producer executions, `pulls`
counts `iter.next()` calls made by generator producers. -/
structure Heap (T G : Type) where
  cells : List (CellState T G)
  runs : Nat
  pulls : Nat
deriving DecidableEq, Repr

variable {T G : Type}

/-- Allocate a fresh cell (Rust `Rc::new(Thunk...)`); returns the new handle
and the extended heap. -/
def alloc (h : Heap T G) (c : CellState T G) : Nat × Heap T G :=
  (h.cells.length, { h with cells := h.cells ++ [c] })

/-- Rust `Rc::clone`: a clone of a handle refers to the very same cell
(reference-count increment only), so it is the same address. -/
def clone (a : Nat) : Nat := a

/-- Run a producer closure in a heap: `node` returns its node; `consNew`
allocates the deferred inner cell and returns the cons; `gen` makes exactly
one `step` call (one `iter.next()` pull) and, on `cons v g'`, allocates the
fresh deferred continuation cell. -/
def runProducer (step : G → GenStep T G) (h : Heap T G) :
    Producer T G → ListNode T × Heap T G
  | .node n => (n, h)
  | .consNew v p =>
      (.Cons v h.cells.length, { h with cells := h.cells ++ [.unevaluated p] })
  | .gen g =>
      match step g with
      | .nil => (.Nil, { h with pulls := h.pulls + 1 })
      | .cons v g' =>
          (.Cons v h.cells.length,
           { h with cells := h.cells ++ [.unevaluated (.gen g')],
                    pulls := h.pulls + 1 })

/-- Force a cell (Rust `Thunk::force`, triggered by deref): if evaluated,
return the memoized node unchanged; if unevaluated, run the producer once
(bumping `runs`), memoize the node and discard the producer.  An address
with no cell returns `Nil` without touching the heap (unreachable for
handles actually created by the library). -/
def force (step : G → GenStep T G) (h : Heap T G) (a : Nat) :
    ListNode T × Heap T G :=
  match h.cells[a]? with
  | none => (.Nil, h)
  | some (.evaluated n) => (n, h)
  | some (.unevaluated p) =>
      let r := runProducer step h p
      (r.1, { r.2 with cells := r.2.cells.set a (.evaluated r.1),
                       runs := r.2.runs + 1 })

/-- Rust `List::new()`: `nil!()` = `Rc::new(lazy!(List::Nil))` — a fresh
cell whose pending producer returns `Nil`. -/
def new (h : Heap T G) : Nat × Heap T G :=
  alloc h (.unevaluated (.node .Nil))

/-- Rust `List::singleton(val)`: `pair!(val, nil!())` — a fresh cell whose
pending producer builds `Cons(val, ...)` around a then-allocated inner nil
cell. -/
def singleton (h : Heap T G) (v : T) : Nat × Heap T G :=
  alloc h (.unevaluated (.consNew v (.node .Nil)))

/-- Rust `RcListMethods::push(self, val)`: `pair!(val, self)` — a fresh cell
whose pending producer returns `Cons(val, self)` with `self` the existing
handle, captured as-is. -/
def push (h : Heap T G) (a : Nat) (v : T) : Nat × Heap T G :=
  alloc h (.unevaluated (.node (.Cons v a)))

/-- Rust `List::head(&self)` on a forced node. -/
def ListNode.head : ListNode T → Option T
  | .Cons v _ => some v
  | .Nil => none

/-- Rust `List::tail(&self)` on a forced node: returns `tail.clone()`, a
handle to the very same tail cell. -/
def ListNode.tail : ListNode T → Option Nat
  | .Cons _ t => some (clone t)
  | .Nil => none

/-- Calling `head` through a handle: deref forces the cell, then reads the
head of the node. -/
def headH (step : G → GenStep T G) (h : Heap T G) (a : Nat) :
    Option T × Heap T G :=
  let r := force step h a
  (r.1.head, r.2)

/-- Calling `tail` through a handle: deref forces the cell, then clones the
tail handle of the node. -/
def tailH (step : G → GenStep T G) (h : Heap T G) (a : Nat) :
    Option Nat × Heap T G :=
  let r := force step h a
  (r.1.tail, r.2)

/-- Rust `RcListMethods::pop`:
`self.tail().and_then(|next| self.head().map(|head| (head, next)))` —
first `tail()` (which forces), then, if a tail exists, `head()` (which
forces again; by memoization the producer does not rerun). -/
def pop (step : G → GenStep T G) (h : Heap T G) (a : Nat) :
    Option (T × Nat) × Heap T G :=
  let t := tailH step h a
  match t.1 with
  | none => (none, t.2)
  | some next =>
      let hd := headH step t.2 a
      match hd.1 with
      | none => (none, hd.2)
      | some v => (some (v, next), hd.2)

/-- One step of `Iterator for &RcList<T>`: force the current cell; on
`Cons(v, rest)` yield `v` and advance to `rest`; on `Nil` yield nothing
(the cursor stays where it is). -/
def iterNext (step : G → GenStep T G) (h : Heap T G) (a : Nat) :
    Option (T × Nat) × Heap T G :=
  let r := force step h a
  match r.1 with
  | .Cons v rest => (some (v, rest), r.2)
  | .Nil => (none, r.2)

/-- Drive the iterator `k` times from cursor `a`, collecting the yielded
values and returning the final cursor and heap.  A `None` step yields
nothing and leaves the cursor in place, exactly as the Rust iterator. -/
def iterSteps (step : G → GenStep T G) :
    Nat → Heap T G → Nat → List T × Nat × Heap T G
  | 0, h, a => ([], a, h)
  | k + 1, h, a =>
      match iterNext step h a with
      | (none, h') => iterSteps step k h' a
      | (some (v, rest), h') =>
          let r := iterSteps step k h' rest
          (v :: r.1, r.2.1, r.2.2)

/-- Rust `RcListMethods::len` = `self.count()`: drive the iterator until it
yields `None`, counting the elements.  The Rust loop has no bound, so we
model it with explicit fuel; `none` means the fuel ran out before the
traversal finished (on an infinite list this happens for every fuel). -/
def lenFuel (step : G → GenStep T G) :
    Nat → Heap T G → Nat → Option (Nat × Heap T G)
  | 0, _, _ => none
  | fuel + 1, h, a =>
      match iterNext step h a with
      | (none, h') => some (0, h')
      | (some (_, rest), h') =>
          match lenFuel step fuel h' rest with
          | none => none
          | some (n, h₂) => some (n + 1, h₂)

/-- Rust `FromIterator for RcList<T>::from_iter(iter)`:
`list!({ match iter.next() { Some(val) => Cons(val, from_iter(iter)), None => Nil } })`
— a single fresh cell whose pending producer holds the iterator state; no
element is pulled at construction time. -/
def fromIter (h : Heap T G) (g : G) : Nat × Heap T G :=
  alloc h (.unevaluated (.gen g))

/-- Generator step for an iterator over an explicit finite list: the state
is the list of elements not yet pulled. -/
def stepL : List T → GenStep T (List T)
  | [] => .nil
  | v :: vs => .cons v vs

/-- Generator step of the test's `fibs_inner(n0, n1) = pair!(n0, fibs_inner(n1, n0 + n1))`:
state `(n0, n1)`, yields `n0`, continues with `(n1, n0 + n1)`. -/
def stepFib : Nat × Nat → GenStep Nat (Nat × Nat)
  | (a, b) => .cons a (b, a + b)

/-- The test's `fibs()` = `fibs_inner(0, 1)`: a fresh generator-backed cell
with state `(0, 1)`. -/
def fibs (h : Heap Nat (Nat × Nat)) : Nat × Heap Nat (Nat × Nat) :=
  alloc h (.unevaluated (.gen (0, 1)))

/-- Reference Fibonacci sequence (the closed-form recurrence the spec and
the test compare against). -/
def fib : Nat → Nat
  | 0 => 0
  | 1 => 1
  | n + 2 => fib n + fib (n + 1)

/-- Force the same handle `n` times in a row, collecting every returned
node (used to state memoization / idempotence of `force`). -/
def forceN (step : G → GenStep T G) :
    Nat → Heap T G → Nat → List (ListNode T) × Heap T G
  | 0, h, _ => ([], h)
  | n + 1, h, a =>
      let r := force step h a
      let rest := forceN step n r.2 a
      (r.1 :: rest.1, rest.2)

/-! Helper lemmas about list indexing, used throughout. -/

theorem getElem?_append_len {α : Type _} (pre : List α) (c : α) (rest : List α) :
    (pre ++ c :: rest)[pre.length]? = some c := by
  induction pre with
  | nil => simp
  | cons x xs ih => simpa using ih

theorem set_append_len {α : Type _} (pre : List α) (c : α) (rest : List α) (e : α) :
    (pre ++ c :: rest).set pre.length e = pre ++ e :: rest := by
  induction pre with
  | nil => rfl
  | cons x xs ih => simp [List.set, ih]

theorem getElem?_some_lt {α : Type _} (l : List α) (a : Nat) (x : α)
    (hx : l[a]? = some x) : a < l.length := by
  induction l generalizing a with
  | nil => simp at hx
  | cons y ys ih =>
    cases a with
    | zero => simp
    | succ a => simpa using ih a (by simpa using hx)

theorem getElem?_append_lt {α : Type _} (l ext : List α) (a : Nat)
    (ha : a < l.length) : (l ++ ext)[a]? = l[a]? := by
  induction l generalizing a with
  | nil => simp at ha
  | cons y ys ih =>
    cases a with
    | zero => simp
    | succ a => simpa using ih a (by simpa using ha)

theorem getElem?_set_self {α : Type _} (l : List α) (a : Nat) (e : α)
    (ha : a < l.length) : (l.set a e)[a]? = some e := by
  induction l generalizing a with
  | nil => simp at ha
  | cons x xs ih =>
    cases a with
    | zero => simp
    | succ a => simpa using ih a (by simpa using ha)

/-! Basic facts about `runProducer` and `force`. -/

theorem runProducer_cells (step : G → GenStep T G) (h : Heap T G)
    (p : Producer T G) :
    ∃ ext, (runProducer step h p).2.cells = h.cells ++ ext := by
  cases p with
  | node n => exact ⟨[], by simp [runProducer]⟩
  | consNew v q => exact ⟨[.unevaluated q], by simp [runProducer]⟩
  | gen g =>
    cases hg : step g with
    | nil => exact ⟨[], by simp [runProducer, hg]⟩
    | cons v g' => exact ⟨[.unevaluated (.gen g')], by simp [runProducer, hg]⟩

theorem runProducer_runs (step : G → GenStep T G) (h : Heap T G)
    (p : Producer T G) : (runProducer step h p).2.runs = h.runs := by
  cases p with
  | node n => rfl
  | consNew v q => rfl
  | gen g => cases hg : step g <;> simp [runProducer, hg]

theorem force_evaluated (step : G → GenStep T G) (h : Heap T G) (a : Nat)
    (n : ListNode T) (ha : h.cells[a]? = some (.evaluated n)) :
    force step h a = (n, h) := by
  simp [force, ha]

theorem force_sets_evaluated (step : G → GenStep T G) (h : Heap T G) (a : Nat)
    (p : Producer T G) (ha : h.cells[a]? = some (.unevaluated p)) :
    (force step h a).2.cells[a]? = some (.evaluated (force step h a).1) := by
  have hlt : a < h.cells.length := getElem?_some_lt _ _ _ ha
  obtain ⟨ext, hext⟩ := runProducer_cells step h p
  simp only [force, ha]
  exact getElem?_set_self _ _ _
    (by rw [hext, List.length_append]; omega)

theorem force_runs_unevaluated (step : G → GenStep T G) (h : Heap T G) (a : Nat)
    (p : Producer T G) (ha : h.cells[a]? = some (.unevaluated p)) :
    (force step h a).2.runs = h.runs + 1 := by
  simp [force, ha, runProducer_runs]

theorem force_idem (step : G → GenStep T G) (h : Heap T G) (a : Nat) :
    force step (force step h a).2 a = ((force step h a).1, (force step h a).2) := by
  cases hc : h.cells[a]? with
  | none => simp [force, hc]
  | some c =>
    cases c with
    | evaluated n =>
      rw [force_evaluated step h a n hc]
      exact force_evaluated step h a n hc
    | unevaluated p =>
      exact force_evaluated step _ a _ (force_sets_evaluated step h a p hc)

theorem forceN_evaluated (step : G → GenStep T G) (m : Nat) (h : Heap T G)
    (a : Nat) (n : ListNode T) (ha : h.cells[a]? = some (.evaluated n)) :
    forceN step m h a = (List.replicate m n, h) := by
  induction m with
  | zero => rfl
  | succ m ih =>
    simp [forceN, force_evaluated step h a n ha, ih, List.replicate_succ]

/-! Symbolic evaluation of `force` on the heap shapes produced by the
library's constructors. -/

theorem force_node (step : G → GenStep T G) (pre : List (CellState T G))
    (n : ListNode T) (rest : List (CellState T G)) (r p : Nat) :
    force step ⟨pre ++ .unevaluated (.node n) :: rest, r, p⟩ pre.length =
      (n, ⟨pre ++ .evaluated n :: rest, r + 1, p⟩) := by
  have hget := getElem?_append_len pre (CellState.unevaluated (.node n)) rest
  simp only [force, hget, runProducer]
  simp [set_append_len]

theorem force_consNew (step : G → GenStep T G) (pre : List (CellState T G))
    (v : T) (q : Producer T G) (r p : Nat) :
    force step ⟨pre ++ [.unevaluated (.consNew v q)], r, p⟩ pre.length =
      (.Cons v (pre.length + 1),
       ⟨pre ++ .evaluated (.Cons v (pre.length + 1)) :: [.unevaluated q],
        r + 1, p⟩) := by
  have hget := getElem?_append_len pre (CellState.unevaluated (.consNew v q)) []
  simp only [force, hget, runProducer]
  have : (pre ++ [CellState.unevaluated (.consNew v q)]) ++
      [CellState.unevaluated q] =
      pre ++ CellState.unevaluated (.consNew v q) ::
        [CellState.unevaluated q] := by simp
  simp [this, set_append_len]

theorem force_gen_cons (step : G → GenStep T G) (pre : List (CellState T G))
    (g g' : G) (v : T) (r p : Nat) (hg : step g = .cons v g') :
    force step ⟨pre ++ [.unevaluated (.gen g)], r, p⟩ pre.length =
      (.Cons v (pre.length + 1),
       ⟨pre ++ .evaluated (.Cons v (pre.length + 1)) ::
          [.unevaluated (.gen g')], r + 1, p + 1⟩) := by
  have hget := getElem?_append_len pre (CellState.unevaluated (.gen g)) []
  simp only [force, hget, runProducer, hg]
  have : (pre ++ [CellState.unevaluated (.gen g)]) ++
      [CellState.unevaluated (.gen g')] =
      pre ++ CellState.unevaluated (.gen g) ::
        [CellState.unevaluated (.gen g')] := by simp
  simp [this, set_append_len]

theorem force_gen_nil (step : G → GenStep T G) (pre : List (CellState T G))
    (g : G) (r p : Nat) (hg : step g = .nil) :
    force step ⟨pre ++ [.unevaluated (.gen g)], r, p⟩ pre.length =
      (.Nil, ⟨pre ++ [.evaluated .Nil], r + 1, p + 1⟩) := by
  have hget := getElem?_append_len pre (CellState.unevaluated (.gen g)) []
  simp only [force, hget, runProducer, hg]
  simp [set_append_len]

/-! Expected shapes of generator-backed traversals: the values produced, the
final generator state and the chain of memoized cells left behind. -/

/-- Generator state of `fibs` after `k` forces. -/
def fibState : Nat × Nat → Nat → Nat × Nat
  | s, 0 => s
  | (a, b), k + 1 => fibState (b, a + b) k

/-- The first `k` values produced by the `fibs` generator from state `(a, b)`. -/
def fibTake : Nat × Nat → Nat → List Nat
  | _, 0 => []
  | (a, b), k + 1 => a :: fibTake (b, a + b) k

/-- The chain of `k` memoized `Cons` cells left behind by `k` forces of the
`fibs` generator, the cell at address `base` linking to `base + 1`, etc. -/
def fibChain : Nat → Nat × Nat → Nat → List (CellState Nat (Nat × Nat))
  | _, _, 0 => []
  | base, (a, b), k + 1 =>
      .evaluated (.Cons a (base + 1)) :: fibChain (base + 1) (b, a + b) k

/-- The chain of memoized `Cons` cells left behind by fully traversing a
`fromIter` list built from the finite sequence `xs`. -/
def listChain : Nat → List T → List (CellState T (List T))
  | _, [] => []
  | base, v :: vs => .evaluated (.Cons v (base + 1)) :: listChain (base + 1) vs

/-! Traversal lemmas. -/

theorem iterSteps_succ (step : G → GenStep T G) (k : Nat) (h : Heap T G)
    (a : Nat) :
    iterSteps step (k + 1) h a =
      match iterNext step h a with
      | (none, h') => iterSteps step k h' a
      | (some (v, rest), h') =>
          let r := iterSteps step k h' rest
          (v :: r.1, r.2.1, r.2.2) := rfl

theorem lenFuel_succ (step : G → GenStep T G) (fuel : Nat) (h : Heap T G)
    (a : Nat) :
    lenFuel step (fuel + 1) h a =
      match iterNext step h a with
      | (none, h') => some (0, h')
      | (some (_, rest), h') =>
          match lenFuel step fuel h' rest with
          | none => none
          | some (n, h₂) => some (n + 1, h₂) := rfl

/-- Iterating any number of times from a memoized `Nil` cell yields nothing
and leaves the heap untouched (the Rust iterator keeps returning `None`). -/
theorem iterSteps_nil (step : G → GenStep T G) (m : Nat) :
    ∀ (h : Heap T G) (a : Nat), h.cells[a]? = some (.evaluated .Nil) →
    iterSteps step m h a = ([], a, h) := by
  induction m with
  | zero => intro h a _; rfl
  | succ m ih =>
    intro h a ha
    simp only [iterSteps, iterNext, force_evaluated step h a .Nil ha]
    exact ih h a ha

/-- Iterating `k` times over the `fibs` generator cell: yields the first `k`
generated values, runs exactly `k` producers (one pull each), leaves behind
`k` memoized `Cons` cells and one still-unevaluated frontier cell. -/
theorem iterSteps_fib (k : Nat) :
    ∀ (pre : List (CellState Nat (Nat × Nat))) (s : Nat × Nat) (r p : Nat),
    iterSteps stepFib k ⟨pre ++ [.unevaluated (.gen s)], r, p⟩ pre.length =
      (fibTake s k, pre.length + k,
       ⟨pre ++ fibChain pre.length s k ++ [.unevaluated (.gen (fibState s k))],
        r + k, p + k⟩) := by
  induction k with
  | zero =>
    intro pre s r p
    obtain ⟨a, b⟩ := s
    simp [iterSteps, fibTake, fibChain, fibState]
  | succ k ih =>
    intro pre s r p
    obtain ⟨a, b⟩ := s
    have hf := force_gen_cons stepFib pre (a, b) (b, a + b) a r p rfl
    simp only [iterSteps, iterNext, hf]
    have harr : pre ++ CellState.evaluated (.Cons a (pre.length + 1)) ::
        [CellState.unevaluated (.gen (b, a + b))] =
        (pre ++ [CellState.evaluated (.Cons a (pre.length + 1))]) ++
        [CellState.unevaluated (.gen (b, a + b))] := by simp
    have hlen : (pre ++ [CellState.evaluated
        (ListNode.Cons a (pre.length + 1))]).length = pre.length + 1 := by simp
    have hrec := ih (pre ++ [CellState.evaluated (.Cons a (pre.length + 1))])
      (b, a + b) (r + 1) (p + 1)
    rw [hlen] at hrec
    rw [harr, hrec]
    simp [fibTake, fibChain, fibState]
    omega

/-- Iterating a `fromIter` cell built from the finite sequence `xs`, with any
fuel of at least `xs.length + 1` steps: yields exactly `xs` (extra steps
yield nothing), ends parked on the memoized `Nil` cell, and runs exactly
`xs.length + 1` producers (`xs.length` `Cons` cells plus the terminal
`Nil`). -/
theorem iterSteps_list (xs : List T) :
    ∀ (pre : List (CellState T (List T))) (r p m : Nat),
    iterSteps stepL (xs.length + m + 1) ⟨pre ++ [.unevaluated (.gen xs)], r, p⟩
      pre.length =
      (xs, pre.length + xs.length,
       ⟨pre ++ listChain pre.length xs ++ [.evaluated .Nil],
        r + xs.length + 1, p + xs.length + 1⟩) := by
  induction xs with
  | nil =>
    intro pre r p m
    have hf := force_gen_nil stepL pre ([] : List T) r p rfl
    simp only [List.length_nil, Nat.zero_add, iterSteps, iterNext, hf]
    have hget : (⟨pre ++ [CellState.evaluated .Nil], r + 1, p + 1⟩ :
        Heap T (List T)).cells[pre.length]? = some (.evaluated .Nil) :=
      getElem?_append_len pre _ []
    rw [iterSteps_nil stepL m _ _ hget]
    simp [listChain]
  | cons v vs ih =>
    intro pre r p m
    have hstep : (v :: vs).length + m + 1 = (vs.length + m + 1) + 1 := by
      simp only [List.length_cons]; omega
    rw [hstep, iterSteps_succ]
    have hf := force_gen_cons stepL pre (v :: vs) vs v r p rfl
    simp only [iterNext, hf]
    have harr : pre ++ CellState.evaluated (.Cons v (pre.length + 1)) ::
        [CellState.unevaluated (.gen vs)] =
        (pre ++ [CellState.evaluated (.Cons v (pre.length + 1))]) ++
        [CellState.unevaluated (.gen vs)] := by simp
    have hlen : (pre ++ [CellState.evaluated
        (ListNode.Cons v (pre.length + 1))]).length = pre.length + 1 := by simp
    have hrec := ih (pre ++ [CellState.evaluated (.Cons v (pre.length + 1))])
      (r + 1) (p + 1) m
    rw [hlen] at hrec
    rw [harr, hrec]
    simp [listChain]
    omega

/-- Counting a `fromIter` cell built from the finite sequence `xs`, with any
fuel of at least `xs.length + 1` steps: returns `xs.length` after exactly
`xs.length + 1` producer runs. -/
theorem lenFuel_list (xs : List T) :
    ∀ (pre : List (CellState T (List T))) (r p m : Nat),
    lenFuel stepL (xs.length + m + 1) ⟨pre ++ [.unevaluated (.gen xs)], r, p⟩
      pre.length =
      some (xs.length,
       ⟨pre ++ listChain pre.length xs ++ [.evaluated .Nil],
        r + xs.length + 1, p + xs.length + 1⟩) := by
  induction xs with
  | nil =>
    intro pre r p m
    have hf := force_gen_nil stepL pre ([] : List T) r p rfl
    simp only [List.length_nil, Nat.zero_add, lenFuel, iterNext, hf]
    simp [listChain]
  | cons v vs ih =>
    intro pre r p m
    have hstep : (v :: vs).length + m + 1 = (vs.length + m + 1) + 1 := by
      simp only [List.length_cons]; omega
    rw [hstep, lenFuel_succ]
    have hf := force_gen_cons stepL pre (v :: vs) vs v r p rfl
    simp only [iterNext, hf]
    have harr : pre ++ CellState.evaluated (.Cons v (pre.length + 1)) ::
        [CellState.unevaluated (.gen vs)] =
        (pre ++ [CellState.evaluated (.Cons v (pre.length + 1))]) ++
        [CellState.unevaluated (.gen vs)] := by simp
    have hlen : (pre ++ [CellState.evaluated
        (ListNode.Cons v (pre.length + 1))]).length = pre.length + 1 := by simp
    have hrec := ih (pre ++ [CellState.evaluated (.Cons v (pre.length + 1))])
      (r + 1) (p + 1) m
    rw [hlen] at hrec
    rw [harr, hrec]
    simp [listChain]
    omega

/-- Counting the `fibs` generator never finishes: for every fuel, `lenFuel`
runs out — the model of `len` diverging on an infinite list. -/
theorem lenFuel_fib_none (fuel : Nat) :
    ∀ (pre : List (CellState Nat (Nat × Nat))) (s : Nat × Nat) (r p : Nat),
    lenFuel stepFib fuel ⟨pre ++ [.unevaluated (.gen s)], r, p⟩ pre.length =
      none := by
  induction fuel with
  | zero => intro pre s r p; rfl
  | succ fuel ih =>
    intro pre s r p
    obtain ⟨a, b⟩ := s
    have hf := force_gen_cons stepFib pre (a, b) (b, a + b) a r p rfl
    simp only [lenFuel, iterNext, hf]
    have harr : pre ++ CellState.evaluated (.Cons a (pre.length + 1)) ::
        [CellState.unevaluated (.gen (b, a + b))] =
        (pre ++ [CellState.evaluated (.Cons a (pre.length + 1))]) ++
        [CellState.unevaluated (.gen (b, a + b))] := by simp
    have hlen : (pre ++ [CellState.evaluated
        (ListNode.Cons a (pre.length + 1))]).length = pre.length + 1 := by simp
    have hrec := ih (pre ++ [CellState.evaluated (.Cons a (pre.length + 1))])
      (b, a + b) (r + 1) (p + 1)
    rw [hlen] at hrec
    rw [harr, hrec]

theorem force_runs_le (step : G → GenStep T G) (h : Heap T G) (a : Nat) :
    (force step h a).2.runs ≤ h.runs + 1 := by
  cases hc : h.cells[a]? with
  | none => simp [force, hc]
  | some c =>
    cases c with
    | evaluated n => simp [force, hc]
    | unevaluated p => simp [force, hc, runProducer_runs]

/-! Claim theorems. -/

/-- C1: forcing a lazy cell holding a pending producer `n > 0` times yields
the identical node each time (the list of results is `n` copies of the
first result), the side-effecting producer runs exactly once (the global
run counter rises by exactly one, regardless of `n`), and forcing through a
cloned shared handle returns the same memoized value with no further
producer run. -/
theorem force_memoizing (step : G → GenStep T G) (h : Heap T G) (a : Nat)
    (p : Producer T G) (n : Nat)
    (ha : h.cells[a]? = some (.unevaluated p)) (hn : 0 < n) :
    forceN step n h a =
      (List.replicate n (force step h a).1, (force step h a).2) ∧
    (force step h a).2.runs = h.runs + 1 ∧
    force step (force step h a).2 (clone a) =
      ((force step h a).1, (force step h a).2) := by
  refine ⟨?_, force_runs_unevaluated step h a p ha, ?_⟩
  · obtain ⟨m, rfl⟩ : ∃ m, n = m + 1 := ⟨n - 1, by omega⟩
    simp only [forceN]
    rw [forceN_evaluated step m (force step h a).2 a (force step h a).1
      (force_sets_evaluated step h a p ha)]
    simp [List.replicate_succ]
  · simpa [clone] using force_idem step h a

/-- Concrete generator step used by witnesses (an exhausted source). -/
def stepUnit : Unit → GenStep Nat Unit := fun _ => .nil

/-- Concrete one-cell heap used by the C1 witness: a single pending thunk
whose producer returns `Nil`. -/
def heapOne : Heap Nat Unit := ⟨[.unevaluated (.node .Nil)], 0, 0⟩

/-- Witness for C1 at a concrete input: the one-cell heap, address 0,
forced three times. -/
theorem force_memoizing_witness :
    heapOne.cells[0]? = some (.unevaluated (.node .Nil)) ∧ 0 < 3 ∧
    (forceN stepUnit 3 heapOne 0 =
      (List.replicate 3 (force stepUnit heapOne 0).1,
       (force stepUnit heapOne 0).2) ∧
     (force stepUnit heapOne 0).2.runs = heapOne.runs + 1 ∧
     force stepUnit (force stepUnit heapOne 0).2 (clone 0) =
       ((force stepUnit heapOne 0).1, (force stepUnit heapOne 0).2)) :=
  ⟨by decide, by decide,
   force_memoizing stepUnit heapOne 0 (.node .Nil) 3 (by decide) (by decide)⟩

/-- C3: `pop` is observationally equivalent to pairing `head` with `tail`
(yielding `some (value, tail handle)` exactly when the forced node is a
`Cons`, `none` when it is `Nil`), it leaves the heap in the same state as a
single accessor call, and the underlying cell's producer runs at most once
(the side-effect counter rises by at most one even though `pop` calls
`tail()` and then `head()`). -/
theorem pop_spec (step : G → GenStep T G) (h : Heap T G) (a : Nat) :
    (pop step h a).1 =
      (match (headH step h a).1, (tailH step h a).1 with
       | some v, some t => some (v, t)
       | _, _ => none) ∧
    (pop step h a).2 = (tailH step h a).2 ∧
    (pop step h a).2.runs ≤ h.runs + 1 := by
  have hi := force_idem step h a
  cases hn : (force step h a).1 with
  | Nil =>
    refine ⟨?_, ?_, ?_⟩ <;>
      simp [pop, tailH, headH, hn, ListNode.tail, ListNode.head, force_runs_le]
  | Cons v t =>
    refine ⟨?_, ?_, ?_⟩ <;>
      simp [pop, tailH, headH, hn, hi, ListNode.tail, ListNode.head, clone,
        force_runs_le]

/-- C7: `head`, `tail` and `pop` on the empty list returned by `new` all
yield `none`: absence is the normal, non-exceptional result. -/
theorem empty_accessors (step : G → GenStep T G) (h : Heap T G) :
    (headH step (new h).2 (new h).1).1 = none ∧
    (tailH step (new h).2 (new h).1).1 = none ∧
    (pop step (new h).2 (new h).1).1 = none := by
  have hf := force_node step h.cells ListNode.Nil [] h.runs h.pulls
  refine ⟨?_, ?_, ?_⟩ <;>
    simp [new, alloc, headH, tailH, pop, hf, ListNode.head, ListNode.tail]

/-- C9 counterexample: in the empty heap, `new` allocates its cell in the
unevaluated state — a pending thunk whose producer returns `Nil` — not in
the already-evaluated state holding the `Empty` node that the claim
asserts. -/
theorem new_unevaluated_counterexample :
    (new (⟨[], 0, 0⟩ : Heap Nat Unit)).2.cells[(new (⟨[], 0, 0⟩ :
        Heap Nat Unit)).1]? = some (.unevaluated (.node .Nil)) ∧
    (new (⟨[], 0, 0⟩ : Heap Nat Unit)).2.cells[(new (⟨[], 0, 0⟩ :
        Heap Nat Unit)).1]? ≠ some (.evaluated .Nil) := by
  decide

/-- C9 amended: `new` returns a handle whose cell is an unevaluated thunk
whose producer immediately yields the `Empty` node; the first force runs
that trivial producer once, yields `Nil` and memoizes it. -/
theorem new_spec (step : G → GenStep T G) (h : Heap T G) :
    (new h).2.cells[(new h).1]? = some (.unevaluated (.node .Nil)) ∧
    (force step (new h).2 (new h).1).1 = .Nil ∧
    (force step (new h).2 (new h).1).2.runs = h.runs + 1 ∧
    (force step (new h).2 (new h).1).2.cells[(new h).1]? =
      some (.evaluated .Nil) := by
  have hf := force_node step h.cells ListNode.Nil [] h.runs h.pulls
  refine ⟨?_, ?_, ?_, ?_⟩ <;>
    simp [new, alloc, hf, getElem?_append_len]

/-- C10: construction by `fromIter` is fully deferred: it allocates exactly
one unevaluated generator cell, mutates nothing, pulls no element from the
source and runs no producer; the first force of that cell makes exactly one
`iter.next()` pull, and the forced node is exactly that one pull's result
(`Nil` on exhaustion, `Cons` of the pulled element and a fresh deferred
continuation cell otherwise). -/
theorem fromIter_deferred (step : G → GenStep T G) (h : Heap T G) (g : G) :
    (fromIter h g).2.cells = h.cells ++ [.unevaluated (.gen g)] ∧
    (fromIter h g).2.pulls = h.pulls ∧
    (fromIter h g).2.runs = h.runs ∧
    (force step (fromIter h g).2 (fromIter h g).1).2.pulls = h.pulls + 1 ∧
    (force step (fromIter h g).2 (fromIter h g).1).1 =
      (match step g with
       | .nil => ListNode.Nil
       | .cons v _ => ListNode.Cons v (h.cells.length + 1)) := by
  refine ⟨by simp [fromIter, alloc], rfl, rfl, ?_, ?_⟩
  · cases hg : step g with
    | nil =>
      have hf := force_gen_nil step h.cells g h.runs h.pulls hg
      simp [fromIter, alloc, hf]
    | cons v g' =>
      have hf := force_gen_cons step h.cells g g' v h.runs h.pulls hg
      simp [fromIter, alloc, hf]
  · cases hg : step g with
    | nil =>
      have hf := force_gen_nil step h.cells g h.runs h.pulls hg
      simp [fromIter, alloc, hf]
    | cons v g' =>
      have hf := force_gen_cons step h.cells g g' v h.runs h.pulls hg
      simp [fromIter, alloc, hf]

theorem fib_add_two (n : Nat) : fib (n + 2) = fib n + fib (n + 1) := rfl

theorem fibTake_fib (k : Nat) : ∀ n, fibTake (fib n, fib (n + 1)) k =
    (List.range k).map (fun i => fib (n + i)) := by
  induction k with
  | zero => intro n; simp [fibTake]
  | succ k ih =>
    intro n
    show fib n :: fibTake (fib (n + 1), fib n + fib (n + 1)) k = _
    rw [← fib_add_two n]
    have h2 : fib (n + 2) = fib (n + 1 + 1) := by norm_num
    rw [h2, ih (n + 1), List.range_succ_eq_map, List.map_cons, List.map_map]
    refine congrArg₂ _ (by simp) ?_
    refine List.map_congr_left fun i _ => ?_
    show fib (n + 1 + i) = fib (n + Nat.succ i)
    congr 1
    omega

theorem fibState_fib (k : Nat) : ∀ n,
    fibState (fib n, fib (n + 1)) k = (fib (n + k), fib (n + k + 1)) := by
  induction k with
  | zero => intro n; simp [fibState]
  | succ k ih =>
    intro n
    show fibState (fib (n + 1), fib n + fib (n + 1)) k = _
    rw [← fib_add_two n]
    have h2 : fib (n + 2) = fib (n + 1 + 1) := by norm_num
    rw [h2, ih (n + 1)]
    have h3 : n + 1 + k = n + (k + 1) := by omega
    rw [h3]

/-- C4: truncating the infinite generator-backed `fibs` list to its first
`k` elements yields exactly the reference Fibonacci sequence
`fib 0, …, fib (k-1)`, runs exactly `k` producers, and leaves exactly one
cell beyond the consumed prefix — the frontier at index `k` — still
unevaluated (no cell beyond index `k` even exists, so none is forced); in
particular for `k = 10` the elements are `[0, 1, 1, 2, 3, 5, 8, 13, 21, 34]`. -/
theorem fibs_take_spec (h : Heap Nat (Nat × Nat)) (k : Nat) :
    iterSteps stepFib k (fibs h).2 (fibs h).1 =
      ((List.range k).map fib, h.cells.length + k,
       ⟨h.cells ++ fibChain h.cells.length (0, 1) k ++
          [.unevaluated (.gen (fib k, fib (k + 1)))],
        h.runs + k, h.pulls + k⟩) ∧
    (iterSteps stepFib 10 ⟨[.unevaluated (.gen (0, 1))], 0, 0⟩ 0).1 =
      [0, 1, 1, 2, 3, 5, 8, 13, 21, 34] := by
  constructor
  · have hmain := iterSteps_fib k h.cells (0, 1) h.runs h.pulls
    have h01 : ((0 : Nat), (1 : Nat)) = (fib 0, fib (0 + 1)) := rfl
    have htake : fibTake (0, 1) k = (List.range k).map fib := by
      rw [h01, fibTake_fib k 0]
      simp
    have hstate : fibState (0, 1) k = (fib k, fib (k + 1)) := by
      rw [h01, fibState_fib k 0]
      simp
    rw [htake, hstate] at hmain
    simpa [fibs, alloc] using hmain
  · decide

/-- C5: iterating a list built by `fromIter` from a finite sequence `xs`
yields exactly the elements of `xs`, in their original order, and then
terminates: with any surplus of `m` extra steps beyond the `xs.length + 1`
needed, the yielded values are still exactly `xs`, the cursor stays parked
on the memoized terminal `Nil` cell, and no producer beyond the
`xs.length + 1` ever runs. -/
theorem fromIter_iterate_spec (h : Heap T (List T)) (xs : List T) (m : Nat) :
    iterSteps stepL (xs.length + m + 1) (fromIter h xs).2 (fromIter h xs).1 =
      (xs, h.cells.length + xs.length,
       ⟨h.cells ++ listChain h.cells.length xs ++ [.evaluated .Nil],
        h.runs + xs.length + 1, h.pulls + xs.length + 1⟩) := by
  simpa [fromIter, alloc] using iterSteps_list xs h.cells h.runs h.pulls m

/-- C6: `len` on a finite `fromIter` list of `n` elements returns `n` and
forces exactly `n + 1` cells — the `n` `Cons` producers plus the terminal
`Nil` producer (the run counter rises by exactly `n + 1`) — for every fuel
of at least `n + 1`; and on the infinite `fibs` list `len` does not
terminate: it exhausts every fuel. -/
theorem len_spec (h : Heap T (List T)) (xs : List T) (m : Nat)
    (h' : Heap Nat (Nat × Nat)) (fuel : Nat) :
    lenFuel stepL (xs.length + m + 1) (fromIter h xs).2 (fromIter h xs).1 =
      some (xs.length,
       ⟨h.cells ++ listChain h.cells.length xs ++ [.evaluated .Nil],
        h.runs + xs.length + 1, h.pulls + xs.length + 1⟩) ∧
    lenFuel stepFib fuel (fibs h').2 (fibs h').1 = none := by
  constructor
  · simpa [fromIter, alloc] using lenFuel_list xs h.cells h.runs h.pulls m
  · simpa [fibs, alloc] using
      lenFuel_fib_none fuel h'.cells (0, 1) h'.runs h'.pulls

theorem getElem?_isSome_of_lt {α : Type _} (l : List α) (a : Nat)
    (ha : a < l.length) : ∃ x, l[a]? = some x := by
  induction l generalizing a with
  | nil => simp at ha
  | cons y ys ih =>
    cases a with
    | zero => exact ⟨y, by simp⟩
    | succ a =>
      obtain ⟨x, hx⟩ := ih a (by simpa using ha)
      exact ⟨x, by simpa using hx⟩

/-- C8: `singleton v` is observationally equivalent to `push`ing `v` onto
`new`: in both, `head` yields `some v`, and `tail` yields a handle whose
cell forces to the `Empty` (`Nil`) node. -/
theorem singleton_spec (step : G → GenStep T G) (h : Heap T G) (v : T) :
    (headH step (singleton h v).2 (singleton h v).1).1 = some v ∧
    (tailH step (singleton h v).2 (singleton h v).1).1 =
      some (h.cells.length + 1) ∧
    (force step (tailH step (singleton h v).2 (singleton h v).1).2
      (h.cells.length + 1)).1 = .Nil ∧
    (headH step (push (new h).2 (new h).1 v).2
      (push (new h).2 (new h).1 v).1).1 = some v ∧
    (tailH step (push (new h).2 (new h).1 v).2
      (push (new h).2 (new h).1 v).1).1 = some (new h).1 ∧
    (force step (tailH step (push (new h).2 (new h).1 v).2
      (push (new h).2 (new h).1 v).1).2 (new h).1).1 = .Nil := by
  have hf1 := force_consNew step h.cells v (.node .Nil) h.runs h.pulls
  have hf2 := force_node step
    (h.cells ++ [CellState.evaluated (.Cons v (h.cells.length + 1))])
    ListNode.Nil [] (h.runs + 1) h.pulls
  rw [show (h.cells ++ [(CellState.evaluated
      (ListNode.Cons v (h.cells.length + 1)) : CellState T G)]).length =
      h.cells.length + 1 by simp] at hf2
  simp only [List.append_assoc, List.cons_append, List.nil_append] at hf2
  have hg1 := force_node step (h.cells ++ [CellState.unevaluated
      (Producer.node (T := T) (G := G) .Nil)]) (.Cons v h.cells.length) []
    h.runs h.pulls
  rw [show (h.cells ++ [CellState.unevaluated
      (Producer.node (T := T) (G := G) .Nil)]).length = h.cells.length + 1
    by simp] at hg1
  simp only [List.append_assoc, List.cons_append, List.nil_append] at hg1
  have hg2 := force_node step h.cells ListNode.Nil
    [CellState.evaluated (.Cons v h.cells.length)] (h.runs + 1) h.pulls
  refine ⟨?_, ?_, ?_, ?_, ?_, ?_⟩ <;>
    simp [singleton, push, new, alloc, headH, tailH, hf1, hf2, hg1, hg2,
      ListNode.head, ListNode.tail, clone]

/-- C2: for a valid base handle `a`, pushing `v₁` and then `v₂` onto the
same base: `head` of each new handle is its pushed value; `tail` of each
new handle is literally the base address `a` — reference equality, so the
two lists share the base cell (structural sharing, not a copy); the pushes
only append two fresh unevaluated cells, mutating no existing cell and
running no producer; and the head value obtained by forcing the base is
unaffected by the pushes. -/
theorem push_spec (step : G → GenStep T G) (h : Heap T G) (a : Nat)
    (v₁ v₂ : T) (ha : a < h.cells.length) :
    (headH step (push (push h a v₁).2 a v₂).2 (push h a v₁).1).1 = some v₁ ∧
    (headH step (push (push h a v₁).2 a v₂).2
      (push (push h a v₁).2 a v₂).1).1 = some v₂ ∧
    (tailH step (push (push h a v₁).2 a v₂).2 (push h a v₁).1).1 = some a ∧
    (tailH step (push (push h a v₁).2 a v₂).2
      (push (push h a v₁).2 a v₂).1).1 = some a ∧
    (push (push h a v₁).2 a v₂).2.cells =
      h.cells ++ [.unevaluated (.node (.Cons v₁ a)),
                  .unevaluated (.node (.Cons v₂ a))] ∧
    (push (push h a v₁).2 a v₂).2.runs = h.runs ∧
    (push (push h a v₁).2 a v₂).2.pulls = h.pulls ∧
    (force step (push (push h a v₁).2 a v₂).2 a).1.head =
      (force step h a).1.head := by
  have hf1 := force_node step h.cells (.Cons v₁ a)
    [CellState.unevaluated (.node (.Cons v₂ a))] h.runs h.pulls
  have hf2 := force_node step (h.cells ++ [CellState.unevaluated
      (Producer.node (.Cons v₁ a))]) (.Cons v₂ a) [] h.runs h.pulls
  rw [show (h.cells ++ [CellState.unevaluated
      (Producer.node (T := T) (G := G) (.Cons v₁ a))]).length =
      h.cells.length + 1 by simp] at hf2
  simp only [List.append_assoc, List.cons_append, List.nil_append] at hf2
  have hcells : (push (push h a v₁).2 a v₂).2.cells =
      h.cells ++ [CellState.unevaluated (.node (.Cons v₁ a)),
                  CellState.unevaluated (.node (.Cons v₂ a))] := by
    simp [push, alloc]
  have hget : (push (push h a v₁).2 a v₂).2.cells[a]? = h.cells[a]? := by
    rw [hcells]
    exact getElem?_append_lt h.cells _ a ha
  refine ⟨?_, ?_, ?_, ?_, hcells, by simp [push, alloc], by simp [push, alloc], ?_⟩
  · simp [push, alloc, headH, hf1, ListNode.head]
  · simp [push, alloc, headH, hf2, ListNode.head]
  · simp [push, alloc, tailH, hf1, ListNode.tail, clone]
  · simp [push, alloc, tailH, hf2, ListNode.tail, clone]
  · obtain ⟨c, hc⟩ := getElem?_isSome_of_lt h.cells a ha
    rw [hc] at hget
    cases c with
    | evaluated n => simp [force, hget, hc]
    | unevaluated p =>
      cases p with
      | node n => simp [force, hget, hc, runProducer]
      | consNew w q => simp [force, hget, hc, runProducer, ListNode.head]
      | gen g =>
        cases hg : step g with
        | nil => simp [force, hget, hc, runProducer, hg, ListNode.head]
        | cons w g' => simp [force, hget, hc, runProducer, hg, ListNode.head]

/-- Witness for C2 at a concrete input: a one-cell base heap (a pending
`Nil` thunk at address 0), pushing the values 7 and 8 onto handle 0. -/
theorem push_spec_witness :
    0 < heapOne.cells.length ∧
    ((headH stepUnit (push (push heapOne 0 7).2 0 8).2
        (push heapOne 0 7).1).1 = some 7 ∧
     (headH stepUnit (push (push heapOne 0 7).2 0 8).2
        (push (push heapOne 0 7).2 0 8).1).1 = some 8 ∧
     (tailH stepUnit (push (push heapOne 0 7).2 0 8).2
        (push heapOne 0 7).1).1 = some 0 ∧
     (tailH stepUnit (push (push heapOne 0 7).2 0 8).2
        (push (push heapOne 0 7).2 0 8).1).1 = some 0 ∧
     (push (push heapOne 0 7).2 0 8).2.cells =
       heapOne.cells ++ [.unevaluated (.node (.Cons 7 0)),
                         .unevaluated (.node (.Cons 8 0))] ∧
     (push (push heapOne 0 7).2 0 8).2.runs = heapOne.runs ∧
     (push (push heapOne 0 7).2 0 8).2.pulls = heapOne.pulls ∧
     (force stepUnit (push (push heapOne 0 7).2 0 8).2 0).1.head =
       (force stepUnit heapOne 0).1.head) :=
  ⟨by decide, push_spec stepUnit heapOne 0 7 8 (by decide)⟩

end Lazylist
